import Mathlib

set_option maxRecDepth 60000

/-!
Verification development for the text-analysis core of the `alcalor-analysis`
repository (module `src/alcalor_analysis/nlp.py`).

The Python strings are modelled as `List Char`.  The character-level model
covers the repertoire the pipeline is written for: ASCII plus the Spanish
accented letters that appear in the source's regular expressions and word
lists.  `str.lower` is modelled as a character-to-character-sequence map
(`pyLowerCharM`): the simple one-to-one mappings over this repertoire plus
the one code point whose lowercase form is longer, `İ` (U+0130), which
Python lowercases to the two characters `i` + U+0307.  `\s` is modelled as
the six ASCII whitespace characters (`pyIsSpace`), and `\w` as ASCII
alphanumerics, the underscore and the Spanish accented letters
(`pyIsWordChar`); code points outside this repertoire are treated as
non-word characters that are fixed by lowercasing.

The numeric results that the source computes with floating point
(frequencies, emergence scores, percentages) are modelled with exact
rationals (`ℚ`).  The TF-IDF weights themselves involve logarithms and an
L2 document normalisation, which have no exact rational representation, so
the TF-IDF ranker is parameterised by the weight assignment
`w : List Char → ℚ`; every theorem about it is proved for an arbitrary `w`,
hence in particular for the weights the source computes.
-/

/-- Python `\s` (the ASCII whitespace characters used by `re` and `str.strip`). -/
def pyIsSpace (c : Char) : Bool :=
  c = ' ' || c = '\t' || c = '\n' || c = '\r' || c = '\x0b' || c = '\x0c'

/-- ASCII decimal digit, Python `\d`. -/
def isAsciiDigit (c : Char) : Bool := '0' ≤ c && c ≤ '9'

/-- Uppercase/lowercase pairs for Python `str.lower` over the modelled
repertoire: ASCII `A`-`Z` and the Spanish accented uppercase letters. -/
def ulPairs : List (Char × Char) :=
  [('A', 'a'), ('B', 'b'), ('C', 'c'), ('D', 'd'), ('E', 'e'), ('F', 'f'),
   ('G', 'g'), ('H', 'h'), ('I', 'i'), ('J', 'j'), ('K', 'k'), ('L', 'l'),
   ('M', 'm'), ('N', 'n'), ('O', 'o'), ('P', 'p'), ('Q', 'q'), ('R', 'r'),
   ('S', 's'), ('T', 't'), ('U', 'u'), ('V', 'v'), ('W', 'w'), ('X', 'x'),
   ('Y', 'y'), ('Z', 'z'),
   ('Á', 'á'), ('É', 'é'), ('Í', 'í'), ('Ó', 'ó'), ('Ú', 'ú'), ('Ü', 'ü'),
   ('Ñ', 'ñ')]

/-- The one-to-one part of Python `str.lower` on one character (table
lookup, identity outside the table). -/
def pyLowerChar (c : Char) : Char :=
  ((ulPairs.find? (fun p => p.1 == c)).map Prod.snd).getD c

/-- Python `str.lower` on one character, as the character sequence it
produces.  `str.lower` is one-to-many: `İ` (U+0130) lowercases to the two
characters `i` + U+0307 (combining dot above) — the only code point whose
lowercase form is longer — and every other modelled character maps through
the one-to-one table. -/
def pyLowerCharM (c : Char) : List Char :=
  if c = 'İ' then ['i', '\u0307'] else [pyLowerChar c]

/-- Python `str.lower` on a text: the concatenation of the per-character
lowercase sequences. -/
def pyLower (l : List Char) : List Char := l.flatMap pyLowerCharM

/-- Python `\w` over the modelled repertoire: ASCII letters and digits, the
underscore, and the Spanish accented letters (which are alphabetic, hence
word characters, in Python's Unicode-aware `\w`). -/
def pyIsWordChar (c : Char) : Bool :=
  ('a' ≤ c && c ≤ 'z') || ('A' ≤ c && c ≤ 'Z') || ('0' ≤ c && c ≤ '9') ||
  c = '_' ||
  c = 'á' || c = 'é' || c = 'í' || c = 'ó' || c = 'ú' || c = 'ü' || c = 'ñ' ||
  c = 'Á' || c = 'É' || c = 'Í' || c = 'Ó' || c = 'Ú' || c = 'Ü' || c = 'Ñ'

/-- Length of the maximal run of non-whitespace characters at the head of a
text (the extent of a greedy `\S+`). -/
def nonSpaceRun (l : List Char) : ℕ :=
  (l.takeWhile (fun c => !pyIsSpace c)).length

/-- Length of the match of Python's `http\S+|www\S+` at the head of the
text, `0` when there is no match.  The alternation tries `http\S+` first and
`\S+` is greedy, exactly as in `re.sub(r'http\S+|www\S+', '', text)`. -/
def urlMatchLen (l : List Char) : ℕ :=
  if l.take 4 = ['h', 't', 't', 'p'] && 0 < nonSpaceRun (l.drop 4) then
    4 + nonSpaceRun (l.drop 4)
  else if l.take 3 = ['w', 'w', 'w'] && 0 < nonSpaceRun (l.drop 3) then
    3 + nonSpaceRun (l.drop 3)
  else 0

/-- Length of the match of Python's `\S+@\S+` at the head of the text, `0`
when there is no match.  A match starting here exists exactly when the
non-space run at the head contains an `@` that is neither its first nor its
last character, and greediness makes the match consume the whole run. -/
def emailMatchLen (l : List Char) : ℕ :=
  let m := nonSpaceRun l
  if '@' ∈ ((l.take m).drop 1).dropLast then m else 0

/-- Length of the match of Python's `\d+` at the head of the text. -/
def digitMatchLen (l : List Char) : ℕ :=
  (l.takeWhile isAsciiDigit).length

/-- One pass of `re.sub(pattern, '', text)` for a pattern whose match length
at the head of a suffix is computed by `f`: scan left to right, delete each
non-overlapping match, continue after it.  Structured with fuel (one unit
per scanned position) so that the definition is structurally recursive; the
wrapper `reSubDelete` supplies sufficient fuel. -/
def reSubAux (f : List Char → ℕ) : ℕ → List Char → List Char
  | _, [] => []
  | 0, l => l
  | fuel + 1, c :: cs =>
    if f (c :: cs) = 0 then c :: reSubAux f fuel cs
    else reSubAux f fuel ((c :: cs).drop (f (c :: cs)))

/-- `re.sub(pattern, '', text)` for the deletion patterns of `clean_text`. -/
def reSubDelete (f : List Char → ℕ) (l : List Char) : List Char :=
  reSubAux f l.length l

/-- The character class kept by `re.sub(r'[^\w\sáéíóúüñ]', ' ', text)`. -/
def punctKeep (c : Char) : Bool :=
  pyIsWordChar c || pyIsSpace c ||
  c = 'á' || c = 'é' || c = 'í' || c = 'ó' || c = 'ú' || c = 'ü' || c = 'ñ'

/-- `re.sub(r'[^\w\sáéíóúüñ]', ' ', text)`: a single-character class, so a
pointwise map. -/
def punctSub (l : List Char) : List Char :=
  l.map (fun c => if punctKeep c then c else ' ')

/-- `re.sub(r'\s+', ' ', text)`: replace every maximal whitespace run by one
space.  The boolean argument records whether the previous character was
whitespace, making the recursion structural. -/
def collapseWsAux : Bool → List Char → List Char
  | _, [] => []
  | prevSp, c :: cs =>
    if pyIsSpace c then
      if prevSp then collapseWsAux true cs else ' ' :: collapseWsAux true cs
    else c :: collapseWsAux false cs

/-- `re.sub(r'\s+', ' ', text)`. -/
def collapseWs (l : List Char) : List Char := collapseWsAux false l

/-- Python `str.strip()`: drop whitespace from both ends. -/
def pyStrip (l : List Char) : List Char :=
  ((l.dropWhile pyIsSpace).reverse.dropWhile pyIsSpace).reverse

/-- `clean_text` from `nlp.py`: lowercase, remove URLs, remove e-mail
addresses, remove digit runs, replace the remaining special characters by a
space, collapse whitespace and strip.  Empty (falsy) input yields `""`. -/
def clean_text (s : List Char) : List Char :=
  if s = [] then []
  else
    pyStrip (collapseWs (punctSub (reSubDelete digitMatchLen
      (reSubDelete emailMatchLen (reSubDelete urlMatchLen (pyLower s))))))

/-- Decidable check that the deletion pattern measured by `f` matches at no
position of the text (every suffix has match length `0`). -/
def noMatchF (f : List Char → ℕ) : List Char → Bool
  | [] => true
  | c :: cs => f (c :: cs) = 0 && noMatchF f cs

/-- The Spanish stopword list `STOPWORDS_ES` from `nlp.py`, verbatim and in
source order (the source uses a set literal; only membership matters). -/
def STOPWORDS_ES : List (List Char) :=
  (
   ["de", "la", "que", "el", "en", "y", "a", "los", "del", "se", "las", 
    "por", "un", "para", "con", "no", "una", "su", "al", "lo", "como", "más", 
    "pero", "sus", "le", "ya", "o", "este", "sí", "porque", "esta", "entre", 
    "cuando", "muy", "sin", "sobre", "también", "me", "hasta", "hay", 
    "donde", "quien", "desde", "todo", "nos", "durante", "todos", "uno", 
    "les", "ni", "contra", "otros", "ese", "eso", "ante", "ellos", "e", 
    "esto", "mí", "antes", "algunos", "qué", "unos", "yo", "otro", "otras", 
    "otra", "él", "tanto", "esa", "estos", "mucho", "quienes", "nada", 
    "muchos", "cual", "poco", "ella", "estar", "estas", "algunas", "algo", 
    "nosotros", "mi", "mis", "tú", "te", "ti", "tu", "tus", "ellas", 
    "nosotras", "vosotros", "vosotras", "os", "mío", "mía", "míos", "mías", 
    "tuyo", "tuya", "tuyos", "tuyas", "suyo", "suya", "suyos", "suyas", 
    "nuestro", "nuestra", "nuestros", "nuestras", "vuestro", "vuestra", 
    "vuestros", "vuestras", "esos", "esas", "estoy", "estás", "está", 
    "estamos", "estáis", "están", "esté", "estés", "estemos", "estéis", 
    "estén", "estaré", "estarás", "estará", "estaremos", "estaréis", 
    "estarán", "estaría", "estarías", "estaríamos", "estaríais", "estarían", 
    "estaba", "estabas", "estábamos", "estabais", "estaban", "estuve", 
    "estuviste", "estuvo", "estuvimos", "estuvisteis", "estuvieron", 
    "estuviera", "estuvieras", "estuviéramos", "estuvierais", "estuvieran", 
    "estuviese", "estuvieses", "estuviésemos", "estuvieseis", "estuviesen", 
    "estando", "estado", "estada", "estados", "estadas", "estad", "he", 
    "has", "ha", "hemos", "habéis", "han", "haya", "hayas", "hayamos", 
    "hayáis", "hayan", "habré", "habrás", "habrá", "habremos", "habréis", 
    "habrán", "habría", "habrías", "habríamos", "habríais", "habrían", 
    "había", "habías", "habíamos", "habíais", "habían", "hube", "hubiste", 
    "hubo", "hubimos", "hubisteis", "hubieron", "hubiera", "hubieras", 
    "hubiéramos", "hubierais", "hubieran", "hubiese", "hubieses", 
    "hubiésemos", "hubieseis", "hubiesen", "habiendo", "habido", "habida", 
    "habidos", "habidas", "soy", "eres", "es", "somos", "sois", "son", "sea", 
    "seas", "seamos", "seáis", "sean", "seré", "serás", "será", "seremos", 
    "seréis", "serán", "sería", "serías", "seríamos", "seríais", "serían", 
    "era", "eras", "éramos", "erais", "eran", "fui", "fuiste", "fue", 
    "fuimos", "fuisteis", "fueron", "fuera", "fueras", "fuéramos", "fuerais", 
    "fueran", "fuese", "fueses", "fuésemos", "fueseis", "fuesen", "siendo", 
    "sido", "tengo", "tienes", "tiene", "tenemos", "tenéis", "tienen", 
    "tenga", "tengas", "tengamos", "tengáis", "tengan", "tendré", "tendrás", 
    "tendrá", "tendremos", "tendréis", "tendrán", "tendría", "tendrías", 
    "tendríamos", "tendríais", "tendrían", "tenía", "tenías", "teníamos", 
    "teníais", "tenían", "tuve", "tuviste", "tuvo", "tuvimos", "tuvisteis", 
    "tuvieron", "tuviera", "tuvieras", "tuviéramos", "tuvierais", "tuvieran", 
    "tuviese", "tuvieses", "tuviésemos", "tuvieseis", "tuviesen", "teniendo", 
    "tenido", "tenida", "tenidos", "tenidas", "tened", "así", "cada", 
    "hacer", "hecho", "sido", "puede", "pueden", "podría", "dijo", "señaló", 
    "indicó", "afirmó", "explicó", "comentó", "añadió", "aseguró", 
    "manifestó", "expresó", "destacó", "informó", "dijo", "año", "años", 
    "día", "días", "vez", "veces", "parte", "además", "ahora", "después", 
    "dos", "tres", "primer", "primera", "segundo", "nueva", "nuevo", "solo", 
    "tras", "siempre", "menos", "según", "ser", "sido", "ver", "hacer", "ir", 
    "dar", "decir", "solo", "mismo", "misma", "mismos", "mismas", "luego", 
    "bien", "manera", "forma", "caso", "hecho", "entonces", "mientras", 
    "aunque", "embargo", "debe", "hacia", "pues", "pasado", "sido", "haber", 
    "través", "medio", "cuenta", "punto", "general", "tan", "sido", "vez", 
    "veces", "ciento", "mil", "millones", "pesos", "ciudad"]).map String.data

/-- Python's substring test `needle in haystack` on strings. -/
def containsSub (needle : List Char) : List Char → Bool
  | [] => needle.isPrefixOf []
  | c :: t => needle.isPrefixOf (c :: t) || containsSub needle t

/-- Maximal runs of `\w` word characters of a text, in order (`cur` carries
the reversed run being scanned, making the recursion structural).  Together
with the length filter in `sklearnTokens` this is `re.findall` of the
default scikit-learn `token_pattern` `(?u)\b\w\w+\b`. -/
def wordRunsAux (cur : List Char) : List Char → List (List Char)
  | [] => if cur = [] then [] else [cur.reverse]
  | c :: cs =>
    if pyIsWordChar c then wordRunsAux (c :: cur) cs
    else if cur = [] then wordRunsAux [] cs
    else cur.reverse :: wordRunsAux [] cs

/-- Maximal word-character runs of a text. -/
def wordRuns (l : List Char) : List (List Char) := wordRunsAux [] l

/-- The scikit-learn `CountVectorizer`/`TfidfVectorizer` tokenizer with the
default settings used by `nlp.py`: lowercase, then take the maximal
word-character runs of length at least 2. -/
def sklearnTokens (text : List Char) : List (List Char) :=
  (wordRuns (pyLower text)).filter (fun t => decide (2 ≤ t.length))

/-- Stopword removal, applied to the token stream before n-grams are formed
(as scikit-learn's `_word_ngrams` does). -/
def stopFilter (toks : List (List Char)) : List (List Char) :=
  toks.filter (fun t => decide (t ∉ STOPWORDS_ES))

/-- Adjacent bigrams of a token stream, joined by a single space. -/
def bigramsOf : List (List Char) → List (List Char)
  | a :: b :: t => (a ++ ' ' :: b) :: bigramsOf (b :: t)
  | _ => []

/-- The feature stream of one document: stopword-filtered unigrams,
followed by their adjacent bigrams when `ng2` is set (`ngram_range=(1,2)`).
This is scikit-learn's analyzer for the settings used in `nlp.py`. -/
def analyzed (ng2 : Bool) (text : List Char) : List (List Char) :=
  let toks := stopFilter (sklearnTokens text)
  toks ++ (if ng2 then bigramsOf toks else [])

/-- Document frequency of a term in a corpus of (already normalized)
texts: the number of documents whose feature stream contains it. -/
def docFreq (ng2 : Bool) (t : List Char) (texts : List (List Char)) : ℕ :=
  texts.countP (fun d => decide (t ∈ analyzed ng2 d))

/-- Total raw count of a term over a corpus (the column sum of the count
matrix). -/
def termCount (ng2 : Bool) (t : List Char) (texts : List (List Char)) : ℕ :=
  (texts.map (fun d => (analyzed ng2 d).count t)).sum

/-- Duplicate removal keeping first occurrences (`seen` accumulates the
terms already emitted, making the recursion structural). -/
def dedupAux (seen : List (List Char)) : List (List Char) → List (List Char)
  | [] => []
  | a :: t =>
    if decide (a ∈ seen) then dedupAux seen t
    else a :: dedupAux (a :: seen) t

/-- Duplicate removal keeping first occurrences. -/
def dedupF (l : List (List Char)) : List (List Char) := dedupAux [] l

/-- Lexicographic comparison of texts by code point (the order in which
scikit-learn sorts its vocabulary). -/
def lexLeB : List Char → List Char → Bool
  | [], _ => true
  | _ :: _, [] => false
  | a :: as, b :: bs =>
    if a.toNat < b.toNat then true
    else if b.toNat < a.toNat then false
    else lexLeB as bs

/-- Sort a list of terms lexicographically. -/
def sortLex (l : List (List Char)) : List (List Char) :=
  List.insertionSort (fun a b => lexLeB a b = true) l

/-- All features of a corpus, deduplicated and in scikit-learn's
alphabetical vocabulary order. -/
def vocabAll (ng2 : Bool) (texts : List (List Char)) : List (List Char) :=
  sortLex (dedupF ((texts.map (analyzed ng2)).flatten))

/-- The document-frequency filter of the vectorizers: at least `minDf`
documents (`min_df`, an absolute count) and, when `maxDf?` is set, at most
the fraction `maxDf?` of the documents (`max_df`, strict above the
threshold). -/
def dfPass (ng2 : Bool) (minDf : ℕ) (maxDf? : Option ℚ)
    (texts : List (List Char)) (t : List Char) : Bool :=
  decide (minDf ≤ docFreq ng2 t texts) &&
  match maxDf? with
  | none => true
  | some q => decide ((docFreq ng2 t texts : ℚ) ≤ q * texts.length)

/-- The fitted vocabulary of a `CountVectorizer`/`TfidfVectorizer` over a
corpus of normalized texts: all features, deduplicated, restricted by the
document-frequency filters; when more than `maxFeat` features remain, only
the `maxFeat` with the highest total counts are kept (`max_features`).
The result is in scikit-learn's alphabetical order. -/
def buildVocab (ng2 : Bool) (minDf : ℕ) (maxDf? : Option ℚ) (maxFeat : ℕ)
    (texts : List (List Char)) : List (List Char) :=
  let kept := (vocabAll ng2 texts).filter (dfPass ng2 minDf maxDf? texts)
  if kept.length ≤ maxFeat then kept
  else
    sortLex ((List.insertionSort
      (fun a b => termCount ng2 b texts ≤ termCount ng2 a texts) kept).take maxFeat)

/-- Python's slice-and-reverse selection `argsort()[-top_n:][::-1]` applied
to a list already sorted in descending order: with `top_n = 0` the slice
`[-0:]` is the whole array, otherwise the top `top_n` entries. -/
def pySliceTop (top_n : ℕ) (l : List (List Char × ℚ)) : List (List Char × ℚ) :=
  if top_n = 0 then l else l.take top_n

/-- The vocabulary of `get_tfidf_by_period`'s `TfidfVectorizer`
(`max_features=1000`, `min_df` as given — 5 in the source, `max_df=0.7`,
`ngram_range=(1,2)`, the Spanish stopword list). -/
def tfidfVocab (texts : List (List Char)) (min_df : ℕ) : List (List Char) :=
  buildVocab true min_df (some (7 / 10)) 1000 texts

/-- `get_tfidf_by_period` from `nlp.py`, on the corpus of article bodies the
period query returns.  `w` is the average-TF-IDF weight assignment computed
by the vectorizer (real-valued in the source, hence a parameter here; every
theorem below holds for all `w`).  Empty corpus returns the empty frame;
an empty fitted vocabulary makes `fit_transform` raise, which the source
catches and turns into the empty frame as well.  Otherwise the terms are
ranked by descending weight and sliced as `argsort()[-top_n:][::-1]`. -/
def get_tfidf_by_period (w : List Char → ℚ) (bodies : List (List Char))
    (top_n min_df : ℕ) : List (List Char × ℚ) :=
  if bodies = [] then []
  else
    let texts := bodies.map clean_text
    let vocab := tfidfVocab texts min_df
    if vocab = [] then []
    else
      pySliceTop top_n
        (List.insertionSort (fun a b : List Char × ℚ => b.2 ≤ a.2)
          (vocab.map (fun t => (t, w t))))

/-- Average per-document frequency of a term over a corpus of normalized
texts: total raw count divided by the number of documents. -/
def avgFreq (t : List Char) (texts : List (List Char)) : ℚ :=
  (termCount true t texts : ℚ) / (texts.length : ℚ)

/-- The emergence score of `find_emerging_terms`: the smoothed ratio
`(target_freq + 0.001) / (baseline_freq + 0.001)` of the average
per-document frequencies in the target and the baseline corpus. -/
def emergence_score (ttexts btexts : List (List Char)) (t : List Char) : ℚ :=
  (avgFreq t ttexts + 1 / 1000) / (avgFreq t btexts + 1 / 1000)

/-- One row of the frame returned by `find_emerging_terms`. -/
structure EmergRow where
  term : List Char
  emergence_score : ℚ
  target_freq : ℚ
  baseline_freq : ℚ
deriving DecidableEq

/-- The shared vocabulary of `find_emerging_terms`'s `CountVectorizer`,
fitted on the union of the target and the baseline corpus
(`max_features=2000`, `min_df=3`, `ngram_range=(1,2)`, stopwords). -/
def emergVocab (texts : List (List Char)) : List (List Char) :=
  buildVocab true 3 none 2000 texts

/-- `find_emerging_terms` from `nlp.py`, on the two corpora of article
bodies the year queries return.  Either corpus empty yields the empty
frame; so does an empty fitted vocabulary (a caught exception in the
source).  Otherwise terms whose target frequency exceeds
`min_target_freq = 0.01` are ranked by descending emergence score and the
first `top_n` are returned. -/
def find_emerging_terms (target baseline : List (List Char)) (top_n : ℕ) :
    List EmergRow :=
  if target = [] ∨ baseline = [] then []
  else
    let ttexts := target.map clean_text
    let btexts := baseline.map clean_text
    let vocab := emergVocab (ttexts ++ btexts)
    if vocab = [] then []
    else
      let valid := vocab.filter (fun t => decide (1 / 100 < avgFreq t ttexts))
      ((List.insertionSort
          (fun a b => emergence_score ttexts btexts b ≤ emergence_score ttexts btexts a)
          valid).take top_n).map
        (fun t => ⟨t, emergence_score ttexts btexts t, avgFreq t ttexts,
                   avgFreq t btexts⟩)

/-- The vocabulary of `find_cooccurrences`'s `CountVectorizer`
(`max_features=500`, `min_df=3`, unigrams only, stopwords). -/
def coocVocab (texts : List (List Char)) : List (List Char) :=
  buildVocab false 3 none 500 texts

/-- `find_cooccurrences` from `nlp.py`.  The SQL filter
`body ILIKE '%term%'` is modelled as a case-insensitive substring test on
the corpus; no matching document yields the empty frame, as does an empty
fitted vocabulary (caught exception).  Otherwise every vocabulary term not
containing the lowercased search term as a substring is paired with its
total count, sorted by descending count (Python's stat-stable `sorted`),
and the first `top_n` are returned. -/
def find_cooccurrences (term : List Char) (corpus : List (List Char))
    (top_n : ℕ) : List (List Char × ℕ) :=
  let matched := corpus.filter (fun b => containsSub (pyLower term) (pyLower b))
  if matched = [] then []
  else
    let texts := matched.map clean_text
    let vocab := coocVocab texts
    if vocab = [] then []
    else
      let valid := vocab.filter (fun name => !containsSub (pyLower term) name)
      (List.insertionSort (fun a b : List Char × ℕ => b.2 ≤ a.2)
        (valid.map (fun t => (t, termCount false t texts)))).take top_n

/-- The positive `ILIKE` patterns of `analyze_sentiment_by_year`'s SQL
query, verbatim. -/
def positivePatterns : List (List Char) :=
  (["éxito", "logro", "avance", "mejora", "beneficio", "crecimiento",
    "desarrollo", "inversión", "progreso", "victoria", "celebra",
    "inaugura"]).map String.data

/-- The negative `ILIKE` patterns of `analyze_sentiment_by_year`'s SQL
query, verbatim. -/
def negativePatterns : List (List Char) :=
  (["crisis", "problema", "violencia", "muerte", "asesin", "secuestr",
    "corrupción", "fraude", "escándalo", "denuncia", "delito", "crimen",
    "narcotráfico", "cartel", "inseguridad"]).map String.data

/-- SQL `body ILIKE '%pat%'`: case-insensitive substring match. -/
def ilike (pat body : List Char) : Bool :=
  containsSub (pyLower pat) (pyLower body)

/-- Duplicate removal on year keys, keeping first occurrences. -/
def dedupIntAux (seen : List ℤ) : List ℤ → List ℤ
  | [] => []
  | a :: t =>
    if decide (a ∈ seen) then dedupIntAux seen t
    else a :: dedupIntAux (a :: seen) t

/-- Duplicate removal on year keys, keeping first occurrences. -/
def dedupInt (l : List ℤ) : List ℤ := dedupIntAux [] l

/-- One row of the frame returned by `analyze_sentiment_by_year`, with the
source's column names. -/
structure SentimentRow where
  «año» : ℤ
  total_articulos : ℕ
  articulos_positivos : ℕ
  articulos_negativos : ℕ
  pct_positivo : ℚ
  pct_negativo : ℚ
  balance_sentimiento : ℚ
deriving DecidableEq

/-- `analyze_sentiment_by_year` from `nlp.py`, on the (year, body) rows of
the articles table.  The SQL `GROUP BY` over the extracted year is modelled
by grouping the rows on their year key (ascending, as `ORDER BY año`); the
filtered counts use the `ILIKE` pattern lists; the percentage columns are
added exactly as in the `with_columns` expressions. -/
def analyze_sentiment_by_year (docs : List (ℤ × List Char)) :
    List SentimentRow :=
  let years := List.insertionSort (fun a b : ℤ => a ≤ b)
    (dedupInt (docs.map Prod.fst))
  years.map (fun y =>
    let group := docs.filter (fun d => decide (d.1 = y))
    let total := group.length
    let pos := group.countP (fun d => positivePatterns.any (fun p => ilike p d.2))
    let neg := group.countP (fun d => negativePatterns.any (fun p => ilike p d.2))
    { «año» := y
      total_articulos := total
      articulos_positivos := pos
      articulos_negativos := neg
      pct_positivo := (pos : ℚ) / (total : ℚ) * 100
      pct_negativo := (neg : ℚ) / (total : ℚ) * 100
      balance_sentimiento := ((pos : ℚ) - (neg : ℚ)) / (total : ℚ) * 100 })

/-- Uppercase letter class `[A-ZÁÉÍÓÚÑ]` of the name pattern in
`extract_key_actors` (note: no `Ü`, exactly as in the source regex). -/
def isNameUpper (c : Char) : Bool :=
  ('A' ≤ c && c ≤ 'Z') || c = 'Á' || c = 'É' || c = 'Í' || c = 'Ó' ||
  c = 'Ú' || c = 'Ñ'

/-- Lowercase letter class `[a-záéíóúñ]` of the name pattern in
`extract_key_actors` (note: no `ü`, exactly as in the source regex). -/
def isNameLower (c : Char) : Bool :=
  ('a' ≤ c && c ≤ 'z') || c = 'á' || c = 'é' || c = 'í' || c = 'ó' ||
  c = 'ú' || c = 'ñ'

/-- Match of the name pattern
`\b([A-ZÁÉÍÓÚÑ][a-záéíóúñ]+)\s+([A-ZÁÉÍÓÚÑ][a-záéíóúñ]+)\b` at the head of
the text.  `prevW` tells whether the character before this position is a
word character (for the leading `\b`).  Greedy quantifiers never backtrack
productively here: shrinking a `[a-záéíóúñ]+` run exposes a lowercase
letter where `\s+` or `\b` is required, so a match exists exactly along the
greedy path, with the trailing `\b` holding iff the character after the
second word is not a word character.  Returns the two captured words and
the rest of the text after the match. -/
def nameMatchAt (prevW : Bool) (l : List Char) :
    Option (List Char × List Char × List Char) :=
  if prevW then none
  else
    match l with
    | [] => none
    | c :: rest =>
      if isNameUpper c then
        let w1tail := rest.takeWhile isNameLower
        let after1 := rest.dropWhile isNameLower
        if w1tail = [] then none
        else
          let ws := after1.takeWhile pyIsSpace
          let after2 := after1.dropWhile pyIsSpace
          if ws = [] then none
          else
            match after2 with
            | [] => none
            | d :: rest2 =>
              if isNameUpper d then
                let w2tail := rest2.takeWhile isNameLower
                let after3 := rest2.dropWhile isNameLower
                if w2tail = [] then none
                else
                  if (match after3 with
                      | [] => true
                      | e :: _ => !pyIsWordChar e) then
                    some (c :: w1tail, d :: w2tail, after3)
                  else none
              else none
      else none

/-- `re.findall` of the name pattern: scan left to right, collect each
match and continue after it (non-overlapping, as `findall` does).  Fuel is
one unit per scanned position; `findallNames` supplies it. -/
def findallNamesAux : ℕ → Bool → List Char → List (List Char × List Char)
  | 0, _, _ => []
  | _ + 1, _, [] => []
  | fuel + 1, prevW, c :: rest =>
    match nameMatchAt prevW (c :: rest) with
    | some (w1, w2, after) => (w1, w2) :: findallNamesAux fuel true after
    | none => findallNamesAux fuel (pyIsWordChar c) rest

/-- `re.findall` of the name pattern over a text. -/
def findallNames (l : List Char) : List (List Char × List Char) :=
  findallNamesAux l.length false l

/-- All positions where the name pattern matches, overlapping matches
included.  This follows the claim's wording ("every overlapping/adjacent
occurrence of the pattern counts") rather than the source, and is compared
against the source's non-overlapping `findall` scan. -/
def allNameMatches : Bool → List Char → List (List Char × List Char)
  | _, [] => []
  | prevW, c :: rest =>
    (match nameMatchAt prevW (c :: rest) with
     | some (w1, w2, _) => [(w1, w2)]
     | none => []) ++ allNameMatches (pyIsWordChar c) rest

/-- The fixed false-positive set of `extract_key_actors`, verbatim. -/
def false_positives : List (List Char) :=
  (["Boca Del", "Del Río", "De La", "La Cruz", "El Puerto", "Las Vegas",
    "Los Angeles", "San Juan", "Nueva York", "Estados Unidos", "Al Calor",
    "Calor Político", "Monte Alto", "Paso Del", "Zona Norte", "Zona Centro"
    ]).map String.data

/-- `Counter` update: increment the count of `name`, inserting it at the
end on first sight (Python dicts preserve insertion order). -/
def bumpCount (name : List Char) : List (List Char × ℕ) → List (List Char × ℕ)
  | [] => [(name, 1)]
  | (n, k) :: t =>
    if n = name then (n, k + 1) :: t else (n, k) :: bumpCount name t

/-- `extract_key_actors` from `nlp.py`, on the (title, body) rows the year
query returns, with the false-positive set as a parameter (the source uses
`false_positives`).  Per document the title and body are concatenated with
a space, the name pattern is scanned with `findall`, and every match whose
words both have length above 2 and whose joined form is not a false
positive is counted.  `most_common(top_n)` is a stable descending sort on
counts followed by taking the first `top_n`. -/
def extract_key_actors (docs : List (List Char × List Char))
    (fps : List (List Char)) (top_n : ℕ) : List (List Char × ℕ) :=
  let counts := docs.foldl (fun acc doc =>
    (findallNames (doc.1 ++ ' ' :: doc.2)).foldl (fun acc2 m =>
      let name := m.1 ++ ' ' :: m.2
      if decide (name ∉ fps) && decide (2 < m.1.length) &&
          decide (2 < m.2.length) then
        bumpCount name acc2
      else acc2) acc) []
  (List.insertionSort (fun a b : List Char × ℕ => b.2 ≤ a.2) counts).take top_n

/-- The no-adjacent-whitespace relation established by whitespace
collapsing. -/
def notBothSp (a b : Char) : Prop :=
  ¬(pyIsSpace a = true ∧ pyIsSpace b = true)

/-- A degenerate weight assignment used when a closed instance of the
TF-IDF ranker must be evaluated (membership in the output is independent
of the weights). -/
def zeroW : List Char → ℚ := fun _ => 0

/-- Concrete target corpus for the emergence witnesses. -/
def emergTargetW : List (List Char) :=
  [("zika").data, ("zika").data, ("zika").data]

/-- Concrete baseline corpus for the emergence witnesses. -/
def emergBaselineW : List (List Char) :=
  [("flu").data, ("flu").data, ("flu").data]

/-- A corpus on which the TF-IDF vocabulary collapses to empty under the
source's `min_df=5` (one document, a stopword and a rare term). -/
def tfidfNoVocabW : List (List Char) := [("la casa").data]

/-- A corpus matching the term `casa` on which the co-occurrence
vocabulary collapses to empty under `min_df=3`. -/
def coocNoVocabW : List (List Char) := [("mi casa azul").data]

/-- Ten documents with `duarte` in eight of them (document frequency 8
exceeds the `max_df=0.7` ceiling of 7) and `clima` in one. -/
def tfidfCorpusEight : List (List Char) :=
  [("duarte gobierno").data, ("duarte gobierno").data, ("duarte gobierno").data,
   ("duarte gobierno").data, ("duarte gobierno").data, ("duarte gobierno").data,
   ("duarte gobierno").data, ("duarte gobierno").data,
   ("clima calle").data, ("gobierno calle").data]

/-- Ten documents with `duarte` in seven of them (document frequency 7 is
within the `max_df=0.7` ceiling) and `clima` in one. -/
def tfidfCorpusSeven : List (List Char) :=
  [("duarte gobierno").data, ("duarte gobierno").data, ("duarte gobierno").data,
   ("duarte gobierno").data, ("duarte gobierno").data, ("duarte gobierno").data,
   ("duarte gobierno").data,
   ("clima gobierno").data, ("gobierno calle").data, ("gobierno calle").data]

/-- Eight documents whose TF-IDF vocabulary is non-empty under the
source's `min_df=5`. -/
def tfidfCorpusTen : List (List Char) :=
  [("duarte llegó").data, ("duarte llegó").data, ("duarte llegó").data,
   ("duarte llegó").data, ("duarte llegó").data,
   ("otro tema aquí").data, ("otro tema aquí").data, ("otro tema aquí").data]

/-- Three documents matching `duarte` and sharing the term `gobierno`. -/
def coocCorpusW : List (List Char) :=
  [("duarte gobierno").data, ("duarte gobierno").data, ("duarte gobierno").data]

/-- Concrete (year, body) rows for the sentiment witness. -/
def sentimentDocsW : List (ℤ × List Char) :=
  [(2016, ("hubo un éxito hoy").data), (2016, ("gran crisis aquí").data),
   (2017, ("nada especial").data)]

/-- Helper: the lowercase values of the case table are not themselves keys,
so lowercasing is idempotent character by character. -/
theorem ulPairs_values_fixed :
    ∀ p ∈ ulPairs, ulPairs.find? (fun q => q.1 == p.2) = none := by decide

theorem pyLowerChar_idem (c : Char) :
    pyLowerChar (pyLowerChar c) = pyLowerChar c := by
  cases h : ulPairs.find? (fun p => p.1 == c) with
  | none => simp [pyLowerChar, h]
  | some p =>
    have hp : p ∈ ulPairs := List.mem_of_find?_eq_some h
    have hv := ulPairs_values_fixed p hp
    simp [pyLowerChar, h, hv]

/-- Helper: no lowercase value of the case table is the dotted capital I. -/
theorem ulPairs_values_ne_dotted_I : ∀ p ∈ ulPairs, p.2 ≠ 'İ' := by decide

/-- Every character produced by lowercasing is itself fixed by
lowercasing (as a one-character sequence). -/
theorem pyLowerCharM_stable {c' c : Char} (h : c ∈ pyLowerCharM c') :
    pyLowerCharM c = [c] := by
  by_cases hI : c' = 'İ'
  · subst hI
    rw [pyLowerCharM, if_pos rfl] at h
    rcases List.mem_cons.mp h with rfl | h2
    · decide
    · rcases List.mem_cons.mp h2 with rfl | h3
      · decide
      · cases h3
  · rw [pyLowerCharM, if_neg hI] at h
    rcases List.mem_cons.mp h with rfl | h2
    · have hne : pyLowerChar c' ≠ 'İ' := by
        unfold pyLowerChar
        cases hf : ulPairs.find? (fun p => p.1 == c') with
        | none => simpa using hI
        | some p =>
          have hp : p ∈ ulPairs := List.mem_of_find?_eq_some hf
          simpa using ulPairs_values_ne_dotted_I p hp
      rw [pyLowerCharM, if_neg hne, pyLowerChar_idem]
    · cases h2

theorem isPrefixOf_self (l : List Char) : l.isPrefixOf l = true := by
  induction l with
  | nil => rfl
  | cons a t ih => simp [List.isPrefixOf, ih]

theorem containsSub_self (l : List Char) : containsSub l l = true := by
  cases l with
  | nil => rfl
  | cons c t => simp [containsSub, isPrefixOf_self]

/-- The output of one `re.sub` deletion pass is a sublist of its input. -/
theorem reSubAux_sublist (f : List Char → ℕ) :
    ∀ fuel l, (reSubAux f fuel l).Sublist l := by
  intro fuel
  induction fuel with
  | zero => intro l; cases l <;> simp [reSubAux]
  | succ n ih =>
    intro l
    cases l with
    | nil => simp [reSubAux]
    | cons c cs =>
      by_cases h : f (c :: cs) = 0
      · simpa [reSubAux, h] using List.Sublist.cons₂ c (ih cs)
      · simpa [reSubAux, h] using (ih _).trans (List.drop_sublist _ _)

/-- A deletion pass over a text the pattern does not match is the
identity. -/
theorem reSubAux_eq_self (f : List Char → ℕ) :
    ∀ fuel l, noMatchF f l = true → reSubAux f fuel l = l := by
  intro fuel
  induction fuel with
  | zero => intro l _; cases l <;> rfl
  | succ n ih =>
    intro l hl
    cases l with
    | nil => rfl
    | cons c cs =>
      have h0 : f (c :: cs) = 0 := by
        have := hl
        simp [noMatchF] at this
        exact this.1
      have h1 : noMatchF f cs = true := by
        have := hl
        simp [noMatchF] at this
        exact this.2
      simp [reSubAux, h0, ih cs h1]

theorem reSubDelete_sublist (f : List Char → ℕ) (l : List Char) :
    (reSubDelete f l).Sublist l := reSubAux_sublist f l.length l

theorem reSubDelete_eq_self (f : List Char → ℕ) (l : List Char)
    (h : noMatchF f l = true) : reSubDelete f l = l :=
  reSubAux_eq_self f l.length l h

/-- The digit-deletion pass leaves no ASCII digit behind (with enough
fuel, as supplied by `reSubDelete`). -/
theorem reSubAux_digit_free :
    ∀ fuel l, l.length ≤ fuel →
      ∀ c ∈ reSubAux digitMatchLen fuel l, isAsciiDigit c = false := by
  intro fuel
  induction fuel with
  | zero =>
    intro l hl c hc
    have : l = [] := List.eq_nil_of_length_eq_zero (Nat.le_zero.mp hl)
    subst this; cases hc
  | succ n ih =>
    intro l hl c hc
    cases l with
    | nil => cases hc
    | cons a cs =>
      by_cases h : digitMatchLen (a :: cs) = 0
      · have ha : isAsciiDigit a = false := by
          by_contra hd
          have hd' : isAsciiDigit a = true := by
            cases hx : isAsciiDigit a
            · exact absurd hx hd
            · rfl
          simp [digitMatchLen, List.takeWhile_cons, hd'] at h
        rw [reSubAux, if_pos h] at hc
        rcases List.mem_cons.mp hc with rfl | hc'
        · exact ha
        · exact ih cs (Nat.le_of_succ_le_succ hl) c hc'
      · rw [reSubAux, if_neg h] at hc
        refine ih _ ?_ c hc
        have h1 : 1 ≤ digitMatchLen (a :: cs) := Nat.one_le_iff_ne_zero.mpr h
        have := List.length_drop (digitMatchLen (a :: cs)) (a :: cs)
        simp only [List.length_cons] at *
        omega


theorem map_id_of_mem {f : Char → Char} :
    ∀ {l : List Char}, (∀ c ∈ l, f c = c) → l.map f = l := by
  intro l
  induction l with
  | nil => intro _; rfl
  | cons a t ih =>
    intro h
    simp only [List.map_cons]
    rw [h a (List.mem_cons_self a t), ih fun c hc => h c (List.mem_cons_of_mem a hc)]

theorem collapseWsAux_mem :
    ∀ (p : Bool) (l : List Char) (c : Char), c ∈ collapseWsAux p l → c ∈ l ∨ c = ' ' := by
  intro p l
  induction l generalizing p with
  | nil => intro c hc; cases hc
  | cons a t ih =>
    intro c hc
    by_cases ha : pyIsSpace a = true
    · cases p with
      | true =>
        simp only [collapseWsAux, ha, if_pos] at hc
        rcases ih true c hc with h | h
        · exact Or.inl (List.mem_cons_of_mem a h)
        · exact Or.inr h
      | false =>
        simp only [collapseWsAux, ha, if_pos] at hc
        rcases List.mem_cons.mp hc with rfl | hc'
        · exact Or.inr rfl
        · rcases ih true c hc' with h | h
          · exact Or.inl (List.mem_cons_of_mem a h)
          · exact Or.inr h
    · simp only [collapseWsAux, ha] at hc
      rw [if_neg] at hc
      · rcases List.mem_cons.mp hc with rfl | hc'
        · exact Or.inl (List.mem_cons_self c t)
        · rcases ih false c hc' with h | h
          · exact Or.inl (List.mem_cons_of_mem a h)
          · exact Or.inr h
      · simp [ha]

theorem collapseWsAux_length :
    ∀ (p : Bool) (l : List Char), (collapseWsAux p l).length ≤ l.length := by
  intro p l
  induction l generalizing p with
  | nil => simp [collapseWsAux]
  | cons a t ih =>
    by_cases ha : pyIsSpace a = true
    · cases p with
      | true =>
        simp only [collapseWsAux, ha, if_pos, List.length_cons]
        exact (ih true).trans (Nat.le_succ _)
      | false =>
        simp only [collapseWsAux, ha, if_pos, List.length_cons]
        exact Nat.succ_le_succ (ih true)
    · simp only [collapseWsAux, ha, List.length_cons]
      rw [if_neg (by simp [ha])]
      exact Nat.succ_le_succ (ih false)

theorem collapseWsAux_plain :
    ∀ (p : Bool) (l : List Char) (c : Char), c ∈ collapseWsAux p l →
      pyIsSpace c = true → c = ' ' := by
  intro p l
  induction l generalizing p with
  | nil => intro c hc; cases hc
  | cons a t ih =>
    intro c hc hsp
    by_cases ha : pyIsSpace a = true
    · cases p with
      | true =>
        simp only [collapseWsAux, ha, if_pos] at hc
        exact ih true c hc hsp
      | false =>
        simp only [collapseWsAux, ha, if_pos] at hc
        rcases List.mem_cons.mp hc with rfl | hc'
        · rfl
        · exact ih true c hc' hsp
    · simp only [collapseWsAux, ha] at hc
      rw [if_neg (by simp [ha])] at hc
      rcases List.mem_cons.mp hc with rfl | hc'
      · exact absurd hsp (by simp [ha])
      · exact ih false c hc' hsp

theorem collapseWsAux_true_head :
    ∀ (l : List Char) (h : Char), (collapseWsAux true l).head? = some h →
      pyIsSpace h = false := by
  intro l
  induction l with
  | nil => intro h hh; cases hh
  | cons a t ih =>
    intro h hh
    by_cases ha : pyIsSpace a = true
    · simp only [collapseWsAux, ha, if_pos] at hh
      exact ih h hh
    · simp only [collapseWsAux, ha] at hh
      rw [if_neg (by simp [ha])] at hh
      simp only [List.head?_cons, Option.some.injEq] at hh
      subst hh
      simp [ha]

theorem collapseWsAux_chain :
    ∀ (p : Bool) (l : List Char), List.Chain' notBothSp (collapseWsAux p l) := by
  intro p l
  induction l generalizing p with
  | nil => cases p <;> exact List.chain'_nil
  | cons a t ih =>
    by_cases ha : pyIsSpace a = true
    · cases p with
      | true =>
        simp only [collapseWsAux, ha, if_pos]
        exact ih true
      | false =>
        simp only [collapseWsAux, ha, if_pos]
        refine List.chain'_cons'.mpr ⟨?_, ih true⟩
        intro y hy
        have := collapseWsAux_true_head t y hy
        exact fun hb => by simp [this] at hb
    · simp only [collapseWsAux, ha]
      rw [if_neg (by simp [ha])]
      refine List.chain'_cons'.mpr ⟨?_, ih false⟩
      intro y _
      exact fun hb => by simp [ha] at hb

/-- On a text whose whitespace is already collapsed (no two adjacent
whitespace characters, every whitespace character a plain space), the
collapse pass is the identity; with a non-whitespace head this also holds
for the in-run state. -/
theorem collapseWsAux_eq :
    ∀ l : List Char, List.Chain' notBothSp l →
      (∀ c ∈ l, pyIsSpace c = true → c = ' ') →
      collapseWsAux false l = l ∧
      ((∀ h, l.head? = some h → pyIsSpace h = false) → collapseWsAux true l = l) := by
  intro l
  induction l with
  | nil => exact fun _ _ => ⟨rfl, fun _ => rfl⟩
  | cons a t ih =>
    intro hch hpl
    have hch' : List.Chain' notBothSp t := (List.chain'_cons'.mp hch).2
    have hrel : ∀ y ∈ t.head?, notBothSp a y := (List.chain'_cons'.mp hch).1
    have hpl' : ∀ c ∈ t, pyIsSpace c = true → c = ' ' :=
      fun c hc => hpl c (List.mem_cons_of_mem a hc)
    obtain ⟨ih1, ih2⟩ := ih hch' hpl'
    by_cases ha : pyIsSpace a = true
    · have ha' : a = ' ' := hpl a (List.mem_cons_self a t) ha
      have hthead : ∀ h, t.head? = some h → pyIsSpace h = false := by
        intro h hh
        have := hrel h (by simp [hh])
        cases hx : pyIsSpace h
        · rfl
        · exact absurd ⟨ha, hx⟩ this
      constructor
      · simp only [collapseWsAux, ha, if_pos]
        rw [ih2 hthead, ha']
        simp
      · intro hhead
        have := hhead a rfl
        rw [ha] at this
        cases this
    · constructor
      · simp only [collapseWsAux, ha]
        rw [if_neg (by simp [ha]), ih1]
      · intro _
        simp only [collapseWsAux, ha]
        rw [if_neg (by simp [ha]), ih1]

theorem collapseWs_eq_self {l : List Char} (hch : List.Chain' notBothSp l)
    (hpl : ∀ c ∈ l, pyIsSpace c = true → c = ' ') : collapseWs l = l :=
  (collapseWsAux_eq l hch hpl).1

theorem head?_dropWhile_false (p : Char → Bool) :
    ∀ (l : List Char) (h : Char), (l.dropWhile p).head? = some h → p h = false := by
  intro l
  induction l with
  | nil => intro h hh; cases hh
  | cons a t ih =>
    intro h hh
    by_cases ha : p a = true
    · rw [List.dropWhile_cons, if_pos ha] at hh
      exact ih h hh
    · rw [List.dropWhile_cons, if_neg ha] at hh
      simp only [List.head?_cons, Option.some.injEq] at hh
      subst hh
      simp only [Bool.not_eq_true] at ha
      exact ha

theorem dropWhile_eq_self_of_head (p : Char → Bool) (l : List Char)
    (h : ∀ x, l.head? = some x → p x = false) : l.dropWhile p = l := by
  cases l with
  | nil => rfl
  | cons a t =>
    rw [List.dropWhile_cons, if_neg]
    simp [h a rfl]

theorem getLast?_of_suffix {l' l : List Char} (h : l' <:+ l) (hne : l' ≠ []) :
    l'.getLast? = l.getLast? := by
  obtain ⟨w, rfl⟩ := h
  rw [List.getLast?_append]
  cases hx : l'.getLast? with
  | none =>
    exact absurd (List.getLast?_eq_none_iff.mp hx) hne
  | some x => rfl

theorem chain_notBothSp_reverse {l : List Char}
    (h : List.Chain' notBothSp l) : List.Chain' notBothSp l.reverse := by
  rw [List.chain'_reverse]
  exact h.imp fun a b hr => fun hx => hr ⟨hx.2, hx.1⟩

theorem pyStrip_subset (l : List Char) : pyStrip l ⊆ l := by
  intro c hc
  unfold pyStrip at hc
  rw [List.mem_reverse] at hc
  have hc2 := (List.dropWhile_suffix pyIsSpace).subset hc
  rw [List.mem_reverse] at hc2
  exact (List.dropWhile_suffix pyIsSpace).subset hc2

theorem pyStrip_length (l : List Char) : (pyStrip l).length ≤ l.length := by
  unfold pyStrip
  rw [List.length_reverse]
  calc ((l.dropWhile pyIsSpace).reverse.dropWhile pyIsSpace).length
      ≤ (l.dropWhile pyIsSpace).reverse.length :=
        (List.dropWhile_suffix pyIsSpace).sublist.length_le
    _ = (l.dropWhile pyIsSpace).length := List.length_reverse _
    _ ≤ l.length := (List.dropWhile_suffix pyIsSpace).sublist.length_le

theorem pyStrip_chain {l : List Char} (h : List.Chain' notBothSp l) :
    List.Chain' notBothSp (pyStrip l) := by
  unfold pyStrip
  exact chain_notBothSp_reverse
    ((chain_notBothSp_reverse (h.suffix (List.dropWhile_suffix pyIsSpace))).suffix
      (List.dropWhile_suffix pyIsSpace))

theorem pyStrip_head (l : List Char) :
    ∀ h, (pyStrip l).head? = some h → pyIsSpace h = false := by
  intro h hh
  unfold pyStrip at hh
  rw [List.head?_reverse] at hh
  set Y := (l.dropWhile pyIsSpace).reverse.dropWhile pyIsSpace with hY
  have hne : Y ≠ [] := by
    intro hemp
    rw [hemp] at hh
    cases hh
  have hsufx : Y <:+ (l.dropWhile pyIsSpace).reverse := List.dropWhile_suffix pyIsSpace
  rw [getLast?_of_suffix hsufx hne, List.getLast?_reverse] at hh
  exact head?_dropWhile_false pyIsSpace l h hh

theorem pyStrip_last (l : List Char) :
    ∀ h, (pyStrip l).getLast? = some h → pyIsSpace h = false := by
  intro h hh
  unfold pyStrip at hh
  rw [List.getLast?_reverse] at hh
  exact head?_dropWhile_false pyIsSpace _ h hh

theorem pyStrip_eq_self {l : List Char}
    (hh : ∀ x, l.head? = some x → pyIsSpace x = false)
    (hl : ∀ x, l.getLast? = some x → pyIsSpace x = false) : pyStrip l = l := by
  unfold pyStrip
  rw [dropWhile_eq_self_of_head pyIsSpace l hh]
  rw [dropWhile_eq_self_of_head pyIsSpace l.reverse
    (by intro x hx; rw [List.head?_reverse] at hx; exact hl x hx)]
  exact List.reverse_reverse l

theorem punctSub_keep (l : List Char) :
    ∀ c ∈ punctSub l, punctKeep c = true := by
  intro c hc
  rcases List.mem_map.mp hc with ⟨a, _, ha⟩
  by_cases hk : punctKeep a = true
  · rw [if_pos hk] at ha; subst ha; exact hk
  · rw [if_neg hk] at ha; subst ha; decide

theorem punctSub_mem (l : List Char) :
    ∀ c ∈ punctSub l, c ∈ l ∨ c = ' ' := by
  intro c hc
  rcases List.mem_map.mp hc with ⟨a, hal, ha⟩
  by_cases hk : punctKeep a = true
  · rw [if_pos hk] at ha; subst ha; exact Or.inl hal
  · rw [if_neg hk] at ha; subst ha; exact Or.inr rfl

theorem punctSub_eq_self {l : List Char}
    (h : ∀ c ∈ l, punctKeep c = true) : punctSub l = l :=
  map_id_of_mem fun c hc => if_pos (h c hc)

theorem flatMap_id_of_mem {f : Char → List Char} :
    ∀ {l : List Char}, (∀ c ∈ l, f c = [c]) → l.flatMap f = l := by
  intro l
  induction l with
  | nil => intro _; rfl
  | cons a t ih =>
    intro h
    rw [List.flatMap_cons, h a (List.mem_cons_self a t),
      ih fun c hc => h c (List.mem_cons_of_mem a hc)]
    rfl

theorem pyLower_eq_self {l : List Char}
    (h : ∀ c ∈ l, pyLowerCharM c = [c]) : pyLower l = l :=
  flatMap_id_of_mem h

theorem clean_text_eq (s : List Char) (hs : s ≠ []) :
    clean_text s = pyStrip (collapseWs (punctSub (reSubDelete digitMatchLen
      (reSubDelete emailMatchLen (reSubDelete urlMatchLen (pyLower s)))))) := by
  unfold clean_text
  rw [if_neg hs]

theorem clean_text_nil : clean_text [] = [] := rfl

/-- Every character of a normalized text is fixed by lowercasing. -/
theorem clean_text_stable (s : List Char) :
    ∀ c ∈ clean_text s, pyLowerCharM c = [c] := by
  intro c hc
  by_cases hs : s = []
  · subst hs; rw [clean_text_nil] at hc; cases hc
  · rw [clean_text_eq s hs] at hc
    have h1 := pyStrip_subset _ hc
    rcases collapseWsAux_mem false _ c h1 with h2 | h2
    · rcases punctSub_mem _ c h2 with h3 | h3
      · have h4 := (reSubDelete_sublist digitMatchLen _).subset h3
        have h5 := (reSubDelete_sublist emailMatchLen _).subset h4
        have h6 := (reSubDelete_sublist urlMatchLen _).subset h5
        rcases List.mem_flatMap.mp h6 with ⟨a, _, hca⟩
        exact pyLowerCharM_stable hca
      · rw [h3]; decide
    · rw [h2]; decide

/-- Every character of a normalized text is in the kept character class. -/
theorem clean_text_keep (s : List Char) :
    ∀ c ∈ clean_text s, punctKeep c = true := by
  intro c hc
  by_cases hs : s = []
  · subst hs; rw [clean_text_nil] at hc; cases hc
  · rw [clean_text_eq s hs] at hc
    have h1 := pyStrip_subset _ hc
    rcases collapseWsAux_mem false _ c h1 with h2 | h2
    · exact punctSub_keep _ c h2
    · rw [h2]; decide

/-- A normalized text contains no ASCII digit. -/
theorem clean_text_nodigit (s : List Char) :
    ∀ c ∈ clean_text s, isAsciiDigit c = false := by
  intro c hc
  by_cases hs : s = []
  · subst hs; rw [clean_text_nil] at hc; cases hc
  · rw [clean_text_eq s hs] at hc
    have h1 := pyStrip_subset _ hc
    rcases collapseWsAux_mem false _ c h1 with h2 | h2
    · rcases punctSub_mem _ c h2 with h3 | h3
      · exact reSubAux_digit_free _ _ (Nat.le_refl _) c h3
      · rw [h3]; decide
    · rw [h2]; decide

/-- A normalized text has no two adjacent whitespace characters. -/
theorem clean_text_chain (s : List Char) :
    List.Chain' notBothSp (clean_text s) := by
  by_cases hs : s = []
  · subst hs; rw [clean_text_nil]; exact List.chain'_nil
  · rw [clean_text_eq s hs]
    exact pyStrip_chain (collapseWsAux_chain false _)

/-- Every whitespace character of a normalized text is a plain space. -/
theorem clean_text_plain (s : List Char) :
    ∀ c ∈ clean_text s, pyIsSpace c = true → c = ' ' := by
  intro c hc hsp
  by_cases hs : s = []
  · subst hs; rw [clean_text_nil] at hc; cases hc
  · rw [clean_text_eq s hs] at hc
    have h1 := pyStrip_subset _ hc
    exact collapseWsAux_plain false _ c h1 hsp

theorem clean_text_head (s : List Char) :
    ∀ x, (clean_text s).head? = some x → pyIsSpace x = false := by
  intro x hx
  by_cases hs : s = []
  · subst hs; rw [clean_text_nil] at hx; cases hx
  · rw [clean_text_eq s hs] at hx
    exact pyStrip_head _ x hx

theorem clean_text_last (s : List Char) :
    ∀ x, (clean_text s).getLast? = some x → pyIsSpace x = false := by
  intro x hx
  by_cases hs : s = []
  · subst hs; rw [clean_text_nil] at hx; cases hx
  · rw [clean_text_eq s hs] at hx
    exact pyStrip_last _ x hx

/-- The e-mail pattern cannot match in a text without `@`. -/
theorem noMatchF_email {l : List Char} (h : '@' ∉ l) :
    noMatchF emailMatchLen l = true := by
  induction l with
  | nil => rfl
  | cons c cs ih =>
    have h0 : emailMatchLen (c :: cs) = 0 := by
      unfold emailMatchLen
      rw [if_neg]
      intro hmem
      apply h
      have h1 := (List.dropLast_sublist _).subset hmem
      have h2 := (List.drop_sublist _ _).subset h1
      exact (List.take_sublist _ _).subset h2
    simp [noMatchF, h0, ih fun hm => h (List.mem_cons_of_mem c hm)]

/-- The digit pattern cannot match in a digit-free text. -/
theorem noMatchF_digit {l : List Char}
    (h : ∀ c ∈ l, isAsciiDigit c = false) :
    noMatchF digitMatchLen l = true := by
  induction l with
  | nil => rfl
  | cons c cs ih =>
    have h0 : digitMatchLen (c :: cs) = 0 := by
      unfold digitMatchLen
      rw [List.takeWhile_cons, if_neg (by simp [h c (List.mem_cons_self c cs)])]
      rfl
    simp [noMatchF, h0, ih fun a ha => h a (List.mem_cons_of_mem c ha)]

/-- Lowercasing preserves length on texts without the dotted capital I
(U+0130), the only character whose lowercase form is longer. -/
theorem pyLower_length_of_no_dotted_I :
    ∀ {s : List Char}, 'İ' ∉ s → (pyLower s).length = s.length := by
  intro s
  induction s with
  | nil => intro _; rfl
  | cons a t ih =>
    intro h
    have ha : a ≠ 'İ' := fun he => h (List.mem_cons.mpr (Or.inl he.symm))
    have ht : 'İ' ∉ t := fun hm => h (List.mem_cons_of_mem a hm)
    show ((a :: t).flatMap pyLowerCharM).length = (a :: t).length
    rw [List.flatMap_cons, List.length_append, pyLowerCharM, if_neg ha]
    have h2 : (t.flatMap pyLowerCharM).length = t.length := ih ht
    simp only [List.length_cons, List.length_nil]
    omega

/-- C4 counterexample: normalization can increase length.  Python's
`str.lower` maps `İ` (U+0130) to the two characters `i` + U+0307; the
combining dot is not a word character, so it becomes a space, and
`clean_text "aİb" = "ai b"` has length 4 while the input has length 3. -/
theorem clean_text_lengthens_counterexample :
    ¬((clean_text (("aİb").data)).length ≤ (("aİb").data).length) := by
  decide

/-- C4 amended: text normalization never increases length for every
string that does not contain `İ` (U+0130), the one code point whose
lowercase expansion is longer than itself: for such `s`,
`len(normalize(s)) <= len(s)`. -/
theorem clean_text_never_lengthens (s : List Char) (hI : 'İ' ∉ s) :
    (clean_text s).length ≤ s.length := by
  by_cases hs : s = []
  · subst hs; rw [clean_text_nil]
  · rw [clean_text_eq s hs]
    have h1 := pyStrip_length (collapseWs (punctSub (reSubDelete digitMatchLen
      (reSubDelete emailMatchLen (reSubDelete urlMatchLen (pyLower s))))))
    have h2 : (collapseWs (punctSub (reSubDelete digitMatchLen
        (reSubDelete emailMatchLen (reSubDelete urlMatchLen (pyLower s)))))).length ≤
        (punctSub (reSubDelete digitMatchLen
        (reSubDelete emailMatchLen (reSubDelete urlMatchLen (pyLower s))))).length :=
      collapseWsAux_length false (punctSub (reSubDelete digitMatchLen
        (reSubDelete emailMatchLen (reSubDelete urlMatchLen (pyLower s)))))
    have h3 : (punctSub (reSubDelete digitMatchLen
        (reSubDelete emailMatchLen (reSubDelete urlMatchLen (pyLower s))))).length =
        (reSubDelete digitMatchLen
        (reSubDelete emailMatchLen (reSubDelete urlMatchLen (pyLower s)))).length :=
      List.length_map _ _
    have h4 := (reSubDelete_sublist digitMatchLen
      (reSubDelete emailMatchLen (reSubDelete urlMatchLen (pyLower s)))).length_le
    have h5 := (reSubDelete_sublist emailMatchLen
      (reSubDelete urlMatchLen (pyLower s))).length_le
    have h6 := (reSubDelete_sublist urlMatchLen (pyLower s)).length_le
    have h7 : (pyLower s).length = s.length := pyLower_length_of_no_dotted_I hI
    omega

/-- C4 witness: a concrete dotted-I-free string on which normalization
shortens. -/
theorem clean_text_never_lengthens_witness :
    'İ' ∉ (("  El Ñandú corrió 123!!").data) ∧
    (clean_text (("  El Ñandú corrió 123!!").data)).length ≤
      (("  El Ñandú corrió 123!!").data).length :=
  ⟨by decide, clean_text_never_lengthens _ (by decide)⟩

/-- C3 counterexample: normalization is not idempotent.  On `"ht1tpx"` the
first pass only removes the digit, leaving `"httpx"`, which the second
pass deletes entirely as a URL-like token. -/
theorem clean_text_not_idempotent :
    clean_text (clean_text (("ht1tpx").data)) ≠ clean_text (("ht1tpx").data) := by
  decide

/-- C3 amended: normalization is idempotent on every string whose
normalized form contains no match of the URL pattern `http\S+|www\S+`
(digit or punctuation removal can splice such a token together, which the
second pass then deletes; nothing else changes on a second pass). -/
theorem clean_text_idem_of_no_url (s : List Char)
    (h : noMatchF urlMatchLen (clean_text s) = true) :
    clean_text (clean_text s) = clean_text s := by
  by_cases h0 : clean_text s = []
  · rw [h0, clean_text_nil]
  · have hat : '@' ∉ clean_text s := fun hmem =>
      absurd (clean_text_keep s '@' hmem) (by decide)
    rw [clean_text_eq (clean_text s) h0]
    rw [pyLower_eq_self (clean_text_stable s)]
    rw [reSubDelete_eq_self urlMatchLen _ h]
    rw [reSubDelete_eq_self emailMatchLen _ (noMatchF_email hat)]
    rw [reSubDelete_eq_self digitMatchLen _ (noMatchF_digit (clean_text_nodigit s))]
    rw [punctSub_eq_self (clean_text_keep s)]
    rw [collapseWs_eq_self (clean_text_chain s) (clean_text_plain s)]
    exact pyStrip_eq_self (clean_text_head s) (clean_text_last s)

/-- C3 witness: a concrete string satisfying the amended hypothesis, on
which normalization is idempotent. -/
theorem clean_text_idem_witness :
    noMatchF urlMatchLen (clean_text (("  Hola, Mundo!! 123 ").data)) = true ∧
    clean_text (clean_text (("  Hola, Mundo!! 123 ").data)) =
      clean_text (("  Hola, Mundo!! 123 ").data) :=
  ⟨by decide, clean_text_idem_of_no_url _ (by decide)⟩

theorem mem_sortLex {t : List Char} {l : List (List Char)} :
    t ∈ sortLex l ↔ t ∈ l :=
  (List.perm_insertionSort _ l).mem_iff

theorem dedupAux_subset :
    ∀ (seen l : List (List Char)), dedupAux seen l ⊆ l := by
  intro seen l
  induction l generalizing seen with
  | nil => intro c hc; cases hc
  | cons a t ih =>
    intro c hc
    by_cases ha : a ∈ seen
    · rw [dedupAux, if_pos (by simpa using ha)] at hc
      exact List.mem_cons_of_mem a (ih seen hc)
    · rw [dedupAux, if_neg (by simpa using ha)] at hc
      rcases List.mem_cons.mp hc with rfl | hc'
      · exact List.mem_cons_self c t
      · exact List.mem_cons_of_mem a (ih (a :: seen) hc')

theorem dedupF_subset (l : List (List Char)) : dedupF l ⊆ l :=
  dedupAux_subset [] l

theorem dedupIntAux_subset : ∀ (seen l : List ℤ), dedupIntAux seen l ⊆ l := by
  intro seen l
  induction l generalizing seen with
  | nil => intro c hc; cases hc
  | cons a t ih =>
    intro c hc
    by_cases ha : a ∈ seen
    · rw [dedupIntAux, if_pos (by simpa using ha)] at hc
      exact List.mem_cons_of_mem a (ih seen hc)
    · rw [dedupIntAux, if_neg (by simpa using ha)] at hc
      rcases List.mem_cons.mp hc with rfl | hc'
      · exact List.mem_cons_self c t
      · exact List.mem_cons_of_mem a (ih (a :: seen) hc')

/-- Everything in a fitted vocabulary passed the document-frequency
filters and comes from the corpus's feature streams. -/
theorem mem_buildVocab {ng2 : Bool} {minDf : ℕ} {maxDf? : Option ℚ}
    {maxFeat : ℕ} {texts : List (List Char)} {t : List Char}
    (ht : t ∈ buildVocab ng2 minDf maxDf? maxFeat texts) :
    minDf ≤ docFreq ng2 t texts ∧
    (∀ q, maxDf? = some q → (docFreq ng2 t texts : ℚ) ≤ q * texts.length) ∧
    ∃ d ∈ texts, t ∈ analyzed ng2 d := by
  have hkept : t ∈ (vocabAll ng2 texts).filter (dfPass ng2 minDf maxDf? texts) := by
    simp only [buildVocab] at ht
    split at ht
    · exact ht
    · rw [mem_sortLex] at ht
      have h1 := (List.take_sublist maxFeat _).subset ht
      exact (List.perm_insertionSort _ _).mem_iff.mp h1
  rcases List.mem_filter.mp hkept with ⟨hall, hpred⟩
  have hall' : t ∈ sortLex (dedupF ((texts.map (analyzed ng2)).flatten)) := hall
  have hsrc : ∃ d ∈ texts, t ∈ analyzed ng2 d := by
    have hsub := dedupF_subset _ (mem_sortLex.mp hall')
    rcases List.mem_flatten.mp hsub with ⟨dl, hdl, htdl⟩
    rcases List.mem_map.mp hdl with ⟨d, hd, rfl⟩
    exact ⟨d, hd, htdl⟩
  unfold dfPass at hpred
  cases maxDf? with
  | none =>
    have hpred2 : decide (minDf ≤ docFreq ng2 t texts) = true := by
      simpa using hpred
    exact ⟨of_decide_eq_true hpred2, fun q hq => Option.noConfusion hq, hsrc⟩
  | some q =>
    have hpred2 : minDf ≤ docFreq ng2 t texts ∧
        (docFreq ng2 t texts : ℚ) ≤ q * texts.length := by
      simpa [Bool.and_eq_true, decide_eq_true_eq] using hpred
    refine ⟨hpred2.1, ?_, hsrc⟩
    intro q' hq'
    cases hq'
    exact hpred2.2

/-- Every pair produced by the TF-IDF ranker names a vocabulary term,
paired with its weight. -/
theorem get_tfidf_mem {w : List Char → ℚ} {bodies : List (List Char)}
    {top_n min_df : ℕ} {p : List Char × ℚ}
    (hp : p ∈ get_tfidf_by_period w bodies top_n min_df) :
    p.1 ∈ tfidfVocab (bodies.map clean_text) min_df ∧ p.2 = w p.1 := by
  by_cases hb : bodies = []
  · rw [get_tfidf_by_period, if_pos hb] at hp
    cases hp
  · simp only [get_tfidf_by_period, if_neg hb] at hp
    by_cases hv : tfidfVocab (bodies.map clean_text) min_df = []
    · rw [if_pos hv] at hp
      cases hp
    · rw [if_neg hv] at hp
      have hsorted : p ∈ List.insertionSort (fun a b : List Char × ℚ => b.2 ≤ a.2)
          ((tfidfVocab (bodies.map clean_text) min_df).map (fun t => (t, w t))) := by
        unfold pySliceTop at hp
        by_cases h0 : top_n = 0
        · rwa [if_pos h0] at hp
        · rw [if_neg h0] at hp
          exact (List.take_sublist _ _).subset hp
      have hmem := (List.perm_insertionSort _ _).mem_iff.mp hsorted
      rcases List.mem_map.mp hmem with ⟨t, htv, hpt⟩
      rw [← hpt]
      exact ⟨htv, rfl⟩

/-- When the whole vocabulary fits in the slice, the slice is the whole
ranked list. -/
theorem pySliceTop_of_le {n : ℕ} {l : List (List Char × ℚ)}
    (h : l.length ≤ n) : pySliceTop n l = l := by
  unfold pySliceTop
  by_cases h0 : n = 0
  · rw [if_pos h0]
  · rw [if_neg h0]
    exact List.take_of_length_le h

/-- C1: in emergence detection the score of every shared-vocabulary term
equals `(target_freq + 0.001) / (baseline_freq + 0.001)`, where each
frequency is the total count over the corpus divided by its document
count; for non-empty corpora the score is non-negative and its denominator
is strictly positive (finite, never a division by zero), even when the
term is absent from the baseline. -/
theorem emergence_score_spec (target baseline : List (List Char)) (t : List Char)
    (ht : target ≠ []) (hb : baseline ≠ [])
    (hv : t ∈ emergVocab (target.map clean_text ++ baseline.map clean_text)) :
    emergence_score (target.map clean_text) (baseline.map clean_text) t =
      ((termCount true t (target.map clean_text) : ℚ) /
        ((target.map clean_text).length : ℚ) + 1 / 1000) /
      ((termCount true t (baseline.map clean_text) : ℚ) /
        ((baseline.map clean_text).length : ℚ) + 1 / 1000) ∧
    0 ≤ emergence_score (target.map clean_text) (baseline.map clean_text) t ∧
    0 < avgFreq t (baseline.map clean_text) + 1 / 1000 := by
  have hnn : ∀ u texts, (0 : ℚ) ≤ avgFreq u texts := fun u texts =>
    div_nonneg (Nat.cast_nonneg _) (Nat.cast_nonneg _)
  have hpos : (0 : ℚ) < avgFreq t (baseline.map clean_text) + 1 / 1000 :=
    add_pos_of_nonneg_of_pos (hnn t _) (by norm_num)
  refine ⟨rfl, ?_, hpos⟩
  unfold emergence_score
  exact div_nonneg (add_nonneg (hnn t _) (by norm_num)) (le_of_lt hpos)

/-- C1 witness: the concrete corpora `emergTargetW`/`emergBaselineW` with
the term `zika`, which is absent from the baseline. -/
theorem emergence_score_spec_witness :
    emergence_score (emergTargetW.map clean_text) (emergBaselineW.map clean_text)
        (("zika").data) =
      ((termCount true (("zika").data) (emergTargetW.map clean_text) : ℚ) /
        ((emergTargetW.map clean_text).length : ℚ) + 1 / 1000) /
      ((termCount true (("zika").data) (emergBaselineW.map clean_text) : ℚ) /
        ((emergBaselineW.map clean_text).length : ℚ) + 1 / 1000) ∧
    0 ≤ emergence_score (emergTargetW.map clean_text)
        (emergBaselineW.map clean_text) (("zika").data) ∧
    0 < avgFreq (("zika").data) (emergBaselineW.map clean_text) + 1 / 1000 :=
  emergence_score_spec emergTargetW emergBaselineW (("zika").data)
    (by decide) (by decide) (by with_unfolding_all decide)

/-- C2: the TF-IDF ranker on an empty corpus and the co-occurrence ranker
with zero matching documents return the empty result; when the fitted
vocabulary collapses to empty (the caught vectorization failure), both
also return the empty result instead of propagating the exception. -/
theorem rankers_never_raise :
    (∀ (w : List Char → ℚ) (top_n min_df : ℕ),
        get_tfidf_by_period w [] top_n min_df = []) ∧
    (∀ (term : List Char) (corpus : List (List Char)) (top_n : ℕ),
        corpus.filter (fun b => containsSub (pyLower term) (pyLower b)) = [] →
        find_cooccurrences term corpus top_n = []) ∧
    (∀ (w : List Char → ℚ) (bodies : List (List Char)) (top_n min_df : ℕ),
        tfidfVocab (bodies.map clean_text) min_df = [] →
        get_tfidf_by_period w bodies top_n min_df = []) ∧
    (∀ (term : List Char) (corpus : List (List Char)) (top_n : ℕ),
        coocVocab ((corpus.filter
          (fun b => containsSub (pyLower term) (pyLower b))).map clean_text) = [] →
        find_cooccurrences term corpus top_n = []) := by
  refine ⟨?_, ?_, ?_, ?_⟩
  · intro w top_n min_df
    simp [get_tfidf_by_period]
  · intro term corpus top_n h
    simp only [find_cooccurrences]
    rw [h]
    simp
  · intro w bodies top_n min_df h
    by_cases hb : bodies = []
    · subst hb; simp [get_tfidf_by_period]
    · simp only [get_tfidf_by_period]
      rw [if_neg hb, if_pos h]
  · intro term corpus top_n h
    by_cases hm : corpus.filter (fun b => containsSub (pyLower term) (pyLower b)) = []
    · simp only [find_cooccurrences]
      rw [hm]
      simp
    · simp only [find_cooccurrences]
      rw [if_neg hm, if_pos h]

/-- C2 witness: concrete empty and degenerate corpora for both rankers. -/
theorem rankers_never_raise_witness :
    get_tfidf_by_period zeroW [] 20 5 = [] ∧
    find_cooccurrences (("casa").data) [] 20 = [] ∧
    get_tfidf_by_period zeroW tfidfNoVocabW 20 5 = [] ∧
    find_cooccurrences (("casa").data) coocNoVocabW 20 = [] :=
  ⟨rankers_never_raise.1 zeroW 20 5,
   rankers_never_raise.2.1 (("casa").data) [] 20 (by decide),
   rankers_never_raise.2.2.1 zeroW tfidfNoVocabW 20 5 (by with_unfolding_all decide),
   rankers_never_raise.2.2.2 (("casa").data) coocNoVocabW 20
     (by with_unfolding_all decide)⟩

/-- C7: every term returned by emergence detection has `target_freq`
strictly above the minimum presence threshold `0.01`; the rows carry the
term with its score and both frequencies, are sorted by descending
emergence score, and number at most `top_n`. -/
theorem find_emerging_terms_spec (target baseline : List (List Char)) (top_n : ℕ) :
    (∀ row ∈ find_emerging_terms target baseline top_n,
        1 / 100 < row.target_freq ∧
        row.target_freq = avgFreq row.term (target.map clean_text) ∧
        row.baseline_freq = avgFreq row.term (baseline.map clean_text) ∧
        row.emergence_score =
          emergence_score (target.map clean_text) (baseline.map clean_text) row.term) ∧
    List.Pairwise (fun a b : EmergRow => b.emergence_score ≤ a.emergence_score)
      (find_emerging_terms target baseline top_n) ∧
    (find_emerging_terms target baseline top_n).length ≤ top_n := by
  by_cases hemp : target = [] ∨ baseline = []
  · simp only [find_emerging_terms, if_pos hemp]
    exact ⟨fun row hrow => absurd hrow (List.not_mem_nil row), List.Pairwise.nil, by simp⟩
  · by_cases hv : emergVocab (target.map clean_text ++ baseline.map clean_text) = []
    · simp only [find_emerging_terms, if_neg hemp, if_pos hv]
      exact ⟨fun row hrow => absurd hrow (List.not_mem_nil row), List.Pairwise.nil, by simp⟩
    · simp only [find_emerging_terms, if_neg hemp, if_neg hv]
      set T := target.map clean_text with hT
      set B := baseline.map clean_text with hB
      set r := fun a b : List Char =>
        emergence_score T B b ≤ emergence_score T B a with hr
      haveI : IsTotal (List Char) r :=
        ⟨fun a b => le_total (emergence_score T B b) (emergence_score T B a)⟩
      haveI : IsTrans (List Char) r :=
        ⟨fun a b c h1 h2 => le_trans h2 h1⟩
      refine ⟨?_, ?_, ?_⟩
      · intro row hrow
        rcases List.mem_map.mp hrow with ⟨t, htl, rfl⟩
        have h1 := (List.take_sublist top_n _).subset htl
        have h2 := (List.perm_insertionSort r _).mem_iff.mp h1
        have h3 := (List.mem_filter.mp h2).2
        exact ⟨of_decide_eq_true h3, rfl, rfl, rfl⟩
      · refine List.Pairwise.map _ (fun a b (h : r a b) => h) ?_
        exact (List.sorted_insertionSort r _).sublist (List.take_sublist _ _)
      · rw [List.length_map, List.length_take]
        exact min_le_left _ _

/-- C7 witness: on the concrete corpora the row for `zika` (score `1001`,
target frequency `1`, baseline frequency `0`) is returned and its target
frequency exceeds the threshold. -/
theorem find_emerging_terms_spec_witness :
    (⟨("zika").data, 1001, 1, 0⟩ : EmergRow) ∈
      find_emerging_terms emergTargetW emergBaselineW 15 ∧
    1 / 100 <
      (⟨("zika").data, 1001, 1, 0⟩ : EmergRow).target_freq := by
  have hm : (⟨("zika").data, 1001, 1, 0⟩ : EmergRow) ∈
      find_emerging_terms emergTargetW emergBaselineW 15 := by
    with_unfolding_all decide
  exact ⟨hm,
    ((find_emerging_terms_spec emergTargetW emergBaselineW 15).1 _ hm).1⟩

/-- Characters of a word run come from the run accumulator or the text. -/
theorem wordRunsAux_chars :
    ∀ (l cur t : List Char), t ∈ wordRunsAux cur l → ∀ c ∈ t, c ∈ cur ∨ c ∈ l := by
  intro l
  induction l with
  | nil =>
    intro cur t ht c hc
    by_cases hcur : cur = []
    · rw [wordRunsAux, if_pos hcur] at ht
      cases ht
    · rw [wordRunsAux, if_neg hcur] at ht
      rcases List.mem_cons.mp ht with rfl | habs
      · exact Or.inl (List.mem_reverse.mp hc)
      · cases habs
  | cons a l ih =>
    intro cur t ht c hc
    by_cases ha : pyIsWordChar a = true
    · rw [wordRunsAux, if_pos ha] at ht
      rcases ih (a :: cur) t ht c hc with h | h
      · rcases List.mem_cons.mp h with rfl | h'
        · exact Or.inr (List.mem_cons_self c l)
        · exact Or.inl h'
      · exact Or.inr (List.mem_cons_of_mem a h)
    · rw [wordRunsAux, if_neg ha] at ht
      by_cases hcur : cur = []
      · rw [if_pos hcur] at ht
        rcases ih [] t ht c hc with h | h
        · cases h
        · exact Or.inr (List.mem_cons_of_mem a h)
      · rw [if_neg hcur] at ht
        rcases List.mem_cons.mp ht with rfl | ht'
        · exact Or.inl (List.mem_reverse.mp hc)
        · rcases ih [] t ht' c hc with h | h
          · cases h
          · exact Or.inr (List.mem_cons_of_mem a h)

/-- Every unigram in a fitted unigram vocabulary is already lowercase
(fixed by lowercasing). -/
theorem vocab_unigram_stable {minDf : ℕ} {maxDf? : Option ℚ} {maxFeat : ℕ}
    {texts : List (List Char)} {t : List Char}
    (ht : t ∈ buildVocab false minDf maxDf? maxFeat texts) : pyLower t = t := by
  rcases (mem_buildVocab ht).2.2 with ⟨d, _, htd⟩
  have h1 : t ∈ stopFilter (sklearnTokens d) := by
    simpa [analyzed] using htd
  have h2 : t ∈ sklearnTokens d := (List.mem_filter.mp h1).1
  have h3 : t ∈ wordRunsAux [] (pyLower d) := (List.mem_filter.mp h2).1
  apply flatMap_id_of_mem
  intro c hc
  rcases wordRunsAux_chars (pyLower d) [] t h3 c hc with h | h
  · cases h
  · rcases List.mem_flatMap.mp h with ⟨a, _, hca⟩
    exact pyLowerCharM_stable hca

/-- C6: the co-occurrence ranker never returns the queried term itself nor
any vocabulary term containing it as a case-insensitive substring; the
returned counts are the raw totals and the rows are sorted by descending
count. -/
theorem find_cooccurrences_spec (term : List Char) (corpus : List (List Char))
    (top_n : ℕ) :
    (∀ p ∈ find_cooccurrences term corpus top_n,
        containsSub (pyLower term) (pyLower p.1) = false ∧
        p.1 ≠ term ∧
        p.2 = termCount false p.1
          ((corpus.filter (fun b => containsSub (pyLower term) (pyLower b))).map
            clean_text)) ∧
    List.Pairwise (fun a b : List Char × ℕ => b.2 ≤ a.2)
      (find_cooccurrences term corpus top_n) := by
  by_cases hm : corpus.filter (fun b => containsSub (pyLower term) (pyLower b)) = []
  · simp only [find_cooccurrences]
    rw [hm]
    simp
  · by_cases hv : coocVocab ((corpus.filter
        (fun b => containsSub (pyLower term) (pyLower b))).map clean_text) = []
    · simp only [find_cooccurrences]
      rw [if_neg hm, if_pos hv]
      simp
    · simp only [find_cooccurrences]
      rw [if_neg hm, if_neg hv]
      set texts := (corpus.filter
        (fun b => containsSub (pyLower term) (pyLower b))).map clean_text with htexts
      set r := fun a b : List Char × ℕ => b.2 ≤ a.2 with hrdef
      haveI : IsTotal (List Char × ℕ) r := ⟨fun a b => Nat.le_total b.2 a.2⟩
      haveI : IsTrans (List Char × ℕ) r := ⟨fun a b c h1 h2 => Nat.le_trans h2 h1⟩
      constructor
      · intro p hp
        have h1 := (List.take_sublist top_n _).subset hp
        have h2 := (List.perm_insertionSort r _).mem_iff.mp h1
        rcases List.mem_map.mp h2 with ⟨t, htv, rfl⟩
        rcases List.mem_filter.mp htv with ⟨htvv, hflt⟩
        have hnc : containsSub (pyLower term) t = false := by
          simpa using hflt
        have hst : pyLower t = t := vocab_unigram_stable htvv
        refine ⟨?_, ?_, rfl⟩
        · show containsSub (pyLower term) (pyLower t) = false
          rw [hst]
          exact hnc
        show t ≠ term
        intro heq
        rw [heq] at hst hnc
        rw [hst] at hnc
        have hself := containsSub_self term
        rw [hnc] at hself
        exact Bool.noConfusion hself
      · exact ((List.sorted_insertionSort r _).sublist (List.take_sublist _ _))

/-- C6 witness: the concrete matched corpus `coocCorpusW` with query term
`duarte` returns the pair `(gobierno, 3)`. -/
theorem find_cooccurrences_spec_witness :
    ((("gobierno").data, 3) : List Char × ℕ) ∈
      find_cooccurrences (("duarte").data) coocCorpusW 20 ∧
    containsSub (pyLower (("duarte").data))
      (pyLower (("gobierno").data)) = false ∧
    (("gobierno").data) ≠ (("duarte").data) := by
  have hm : ((("gobierno").data, 3) : List Char × ℕ) ∈
      find_cooccurrences (("duarte").data) coocCorpusW 20 := by
    with_unfolding_all decide
  have h := (find_cooccurrences_spec (("duarte").data) coocCorpusW 20).1 _ hm
  exact ⟨hm, h.1, h.2.1⟩

/-- C8 counterexample: in the claim's synthetic scenario (`duarte` in 8 of
10 documents, `clima` in 1, `min_df=2`) the term `duarte` is NOT present
in the ranked output: its document frequency 8 exceeds the vectorizer's
`max_df=0.7` ceiling (7 of 10 documents), so it is pruned from the
vocabulary. -/
theorem tfidf_duarte_absent_counterexample :
    docFreq true (("duarte").data) (tfidfCorpusEight.map clean_text) = 8 ∧
    (("duarte").data) ∉ tfidfVocab (tfidfCorpusEight.map clean_text) 2 ∧
    (("duarte").data) ∉
      (get_tfidf_by_period zeroW tfidfCorpusEight 20 2).map Prod.fst := by
  with_unfolding_all decide

/-- C8 amended: the minimum-document-frequency floor holds universally;
and the synthetic scenario holds once `duarte`'s document frequency is
lowered to 7 of 10 documents to clear the `max_df=0.7` ceiling: `clima`
(in 1 document) is absent from the ranked output and `duarte` is present,
for every weight assignment. -/
theorem tfidf_min_df_floor :
    (∀ (w : List Char → ℚ) (bodies : List (List Char)) (top_n min_df : ℕ)
        (t : List Char),
        docFreq true t (bodies.map clean_text) < min_df →
        t ∉ (get_tfidf_by_period w bodies top_n min_df).map Prod.fst) ∧
    (∀ w : List Char → ℚ,
        (("clima").data) ∉
          (get_tfidf_by_period w tfidfCorpusSeven 20 2).map Prod.fst ∧
        (("duarte").data) ∈
          (get_tfidf_by_period w tfidfCorpusSeven 20 2).map Prod.fst) := by
  have hfloor : ∀ (w : List Char → ℚ) (bodies : List (List Char))
      (top_n min_df : ℕ) (t : List Char),
      docFreq true t (bodies.map clean_text) < min_df →
      t ∉ (get_tfidf_by_period w bodies top_n min_df).map Prod.fst := by
    intro w bodies top_n min_df t hdf hmem
    rcases List.mem_map.mp hmem with ⟨p, hp, rfl⟩
    have h1 := (get_tfidf_mem hp).1
    have h2 := (mem_buildVocab h1).1
    omega
  refine ⟨hfloor, fun w => ⟨?_, ?_⟩⟩
  · exact hfloor w tfidfCorpusSeven 20 2 (("clima").data)
      (by with_unfolding_all decide)
  · have hvm : (("duarte").data) ∈ tfidfVocab (tfidfCorpusSeven.map clean_text) 2 := by
      with_unfolding_all decide
    have hb : tfidfCorpusSeven ≠ [] := by decide
    have hv : tfidfVocab (tfidfCorpusSeven.map clean_text) 2 ≠ [] :=
      fun h => by rw [h] at hvm; cases hvm
    simp only [get_tfidf_by_period]
    rw [if_neg hb, if_neg hv]
    have hlen : (List.insertionSort (fun a b : List Char × ℚ => b.2 ≤ a.2)
        ((tfidfVocab (tfidfCorpusSeven.map clean_text) 2).map
          (fun t => (t, w t)))).length ≤ 20 := by
      rw [(List.perm_insertionSort _ _).length_eq, List.length_map]
      have hlv : (tfidfVocab (tfidfCorpusSeven.map clean_text) 2).length = 4 := by
        with_unfolding_all decide
      omega
    rw [pySliceTop_of_le hlen]
    apply List.mem_map.mpr
    refine ⟨((("duarte").data), w (("duarte").data)), ?_, rfl⟩
    apply (List.perm_insertionSort _ _).mem_iff.mpr
    exact List.mem_map.mpr ⟨(("duarte").data), hvm, rfl⟩

/-- C8 witness: the amended scenario instantiated at the zero weight
assignment. -/
theorem tfidf_min_df_floor_witness :
    (("clima").data) ∉
      (get_tfidf_by_period zeroW tfidfCorpusSeven 20 2).map Prod.fst ∧
    (("duarte").data) ∈
      (get_tfidf_by_period zeroW tfidfCorpusSeven 20 2).map Prod.fst :=
  ⟨tfidf_min_df_floor.1 zeroW tfidfCorpusSeven 20 2 (("clima").data)
      (by with_unfolding_all decide),
   (tfidf_min_df_floor.2 zeroW).2⟩

/-- C10: calling the TF-IDF ranker with `top_n = 0` returns the whole
vocabulary ranked by descending weight — Python's `[-0:]` slice is the
entire array — rather than the empty sequence. -/
theorem tfidf_top_n_zero_returns_all (w : List Char → ℚ)
    (bodies : List (List Char)) (min_df : ℕ) (t : List Char)
    (hb : bodies ≠ []) (ht : t ∈ tfidfVocab (bodies.map clean_text) min_df) :
    t ∈ (get_tfidf_by_period w bodies 0 min_df).map Prod.fst ∧
    (get_tfidf_by_period w bodies 0 min_df).length =
      (tfidfVocab (bodies.map clean_text) min_df).length ∧
    List.Pairwise (fun a b : List Char × ℚ => b.2 ≤ a.2)
      (get_tfidf_by_period w bodies 0 min_df) := by
  have hv : tfidfVocab (bodies.map clean_text) min_df ≠ [] :=
    fun h => by rw [h] at ht; cases ht
  haveI : IsTotal (List Char × ℚ) (fun a b : List Char × ℚ => b.2 ≤ a.2) :=
    ⟨fun a b => le_total b.2 a.2⟩
  haveI : IsTrans (List Char × ℚ) (fun a b : List Char × ℚ => b.2 ≤ a.2) :=
    ⟨fun a b c h1 h2 => le_trans h2 h1⟩
  simp only [get_tfidf_by_period]
  rw [if_neg hb, if_neg hv]
  have hslice : ∀ l : List (List Char × ℚ), pySliceTop 0 l = l := by
    intro l
    unfold pySliceTop
    rw [if_pos rfl]
  rw [hslice]
  refine ⟨?_, ?_, ?_⟩
  · apply List.mem_map.mpr
    refine ⟨(t, w t), ?_, rfl⟩
    apply (List.perm_insertionSort _ _).mem_iff.mpr
    exact List.mem_map.mpr ⟨t, ht, rfl⟩
  · rw [(List.perm_insertionSort _ _).length_eq, List.length_map]
  · exact List.sorted_insertionSort _ _

/-- C10 witness: a concrete non-empty corpus with a surviving vocabulary,
at the zero weight assignment. -/
theorem tfidf_top_n_zero_witness :
    (("duarte").data) ∈
      (get_tfidf_by_period zeroW tfidfCorpusTen 0 5).map Prod.fst ∧
    (get_tfidf_by_period zeroW tfidfCorpusTen 0 5).length =
      (tfidfVocab (tfidfCorpusTen.map clean_text) 5).length :=
  have h := tfidf_top_n_zero_returns_all zeroW tfidfCorpusTen 5 (("duarte").data)
    (by decide) (by with_unfolding_all decide)
  ⟨h.1, h.2.1⟩

/-- C9: every row of the sentiment frame satisfies the percentage
formulas, the flagged counts are bounded by the total, and every partition
in the output has a strictly positive total (the GROUP BY produces only
non-empty groups, so no division by zero occurs and no zero-total
partition appears). -/
theorem analyze_sentiment_spec (docs : List (ℤ × List Char)) :
    ∀ row ∈ analyze_sentiment_by_year docs,
      0 < row.total_articulos ∧
      row.pct_positivo =
        (row.articulos_positivos : ℚ) / (row.total_articulos : ℚ) * 100 ∧
      row.pct_negativo =
        (row.articulos_negativos : ℚ) / (row.total_articulos : ℚ) * 100 ∧
      row.balance_sentimiento =
        ((row.articulos_positivos : ℚ) - (row.articulos_negativos : ℚ)) /
          (row.total_articulos : ℚ) * 100 ∧
      row.articulos_positivos ≤ row.total_articulos ∧
      row.articulos_negativos ≤ row.total_articulos := by
  intro row hrow
  simp only [analyze_sentiment_by_year] at hrow
  rcases List.mem_map.mp hrow with ⟨y, hy, rfl⟩
  have hy2 : y ∈ dedupInt (docs.map Prod.fst) :=
    (List.perm_insertionSort _ _).mem_iff.mp hy
  have hy3 : y ∈ docs.map Prod.fst := dedupIntAux_subset [] _ hy2
  rcases List.mem_map.mp hy3 with ⟨d, hd, rfl⟩
  have hdg : d ∈ docs.filter (fun x => decide (x.1 = d.1)) :=
    List.mem_filter.mpr ⟨hd, by simp⟩
  exact ⟨List.length_pos_of_mem hdg, rfl, rfl, rfl,
    List.countP_le_length _, List.countP_le_length _⟩

/-- C9 witness: the concrete rows of `sentimentDocsW` produce the 2016
partition with total 2, one positive and one negative flag, and the
percentage columns 50/50/0. -/
theorem analyze_sentiment_spec_witness :
    (⟨2016, 2, 1, 1, 50, 50, 0⟩ : SentimentRow) ∈
      analyze_sentiment_by_year sentimentDocsW ∧
    0 < (⟨2016, 2, 1, 1, 50, 50, 0⟩ : SentimentRow).total_articulos := by
  have hm : (⟨2016, 2, 1, 1, 50, 50, 0⟩ : SentimentRow) ∈
      analyze_sentiment_by_year sentimentDocsW := by
    with_unfolding_all decide
  exact ⟨hm, (analyze_sentiment_spec sentimentDocsW _ hm).1⟩

/-- C5 counterexample: the extractor does not count every overlapping
occurrence of the name pattern.  In "Ana Bel Car" the pattern also matches
at "Bel Car" (overlapping the first match), yet the extractor returns only
[("Ana Bel", 1)] because `findall` scans non-overlapping matches. -/
theorem extract_key_actors_counterexample :
    extract_key_actors [((("").data), (("Ana Bel Car").data))] [] 30 =
      [((("Ana Bel").data), 1)] ∧
    ((("Bel").data), (("Car").data)) ∈
      allNameMatches false ((" Ana Bel Car").data) := by
  decide

/-- C5 amended: the extractor counts the pattern's non-overlapping
left-to-right `findall` matches — adjacent repetitions count separately,
overlapping ones do not — and on the claim's document it returns
[("Javier Duarte", 2)] with an empty false-positive set. -/
theorem extract_key_actors_javier_duarte :
    extract_key_actors
        [((("").data), (("Javier Duarte fue acusado. Javier Duarte huyó.").data))]
        [] 30 = [((("Javier Duarte").data), 2)] ∧
    extract_key_actors
        [((("").data), (("Javier Duarte Javier Duarte").data))] [] 30 =
      [((("Javier Duarte").data), 2)] := by
  decide
